import Mathlib

/-!
Shallow embedding of `src/Blockchain.py` (classes `Block` and `Blockchain`).

Modelling decisions, recorded once here:

* `Block.compute_hash` in the source is
  `sha256(json.dumps(self.__dict__, sort_keys=True).encode()).hexdigest()`.
  The digest is therefore a deterministic function of *every attribute
  currently present on the object* — including `nonce` and `hash` once they
  have been assigned, since Python stores them in the same `__dict__`.
  We abstract the composite `sha256 ∘ json.dumps` as a parameter
  `H : HashFun`, a function of the whole attribute record.  No property of
  SHA-256 is assumed anywhere; theorems quantify over `H`, and concrete
  instantiations of `H` are used for explicit evaluations.  Attributes that
  may be absent in Python (`nonce`, `hash`) are `Option`-valued, with `none`
  meaning "attribute not set"; an `AttributeError` on reading an absent
  attribute is modelled by an `Option.none` result of the operation.

* `time.time()` is an external input; operations that read the clock take the
  timestamp as an explicit argument (modelled as `Nat`; its only role is to be
  part of the hashed record).

* Transactions are opaque payloads, modelled as `String`.

* The unbounded `while` loop of `proof_of_work` is modelled with explicit
  fuel; `none` means the loop has not terminated within the given fuel.

* Python's mutation of blocks (in `proof_of_work`, `add_block`,
  `check_chain_validity`) is modelled by explicit state passing: each
  operation returns the updated objects next to its Python return value.
-/

/-- A transaction payload; the core treats it as opaque. -/
abbrev Tx : Type := String

/-- The attribute record of a Python `Block` object.  `nonce` and `hash` are
`Option`-valued because the source creates blocks without them and assigns
them later (`proof_of_work` sets `nonce`, sealing assigns `hash`). -/
structure Block where
  index : Nat
  transactions : List Tx
  timestamp : Nat
  previous_hash : String
  nonce : Option Nat := none
  hash : Option String := none
deriving DecidableEq, Repr

/-- Abstraction of `sha256(json.dumps(self.__dict__, sort_keys=True))`: a
deterministic function of the full attribute record of a block. -/
def HashFun : Type := Block → String

/-- Model of `Block.compute_hash` (src/Blockchain.py lines 16-20): serializes the whole
`__dict__` and hashes it.  In the embedding this is exactly `H` applied to the
block's full attribute record. -/
def Block.compute_hash (H : HashFun) (b : Block) : String := H b

/-- Model of `Blockchain.difficulty = 2` (src/Blockchain.py line 25). -/
def Blockchain.difficulty : Nat := 2

/-- The string `'0' * Blockchain.difficulty` used by the difficulty predicate
(src/Blockchain.py lines 58 and 79). -/
def difficultyZeros : String := "00"

/-- Model of Python `str.startswith(p)`: the first `p.length` characters of
`s` equal `p` (false when `s` is shorter than `p`). -/
def strStartsWith (s p : String) : Bool := s.data.take p.data.length == p.data

/-- The genesis sentinel `"0" * 64` (src/Blockchain.py line 34). -/
def zeros64 : String :=
  "0000000000000000000000000000000000000000000000000000000000000000"

/-- The `Blockchain` object state: the pending-transaction buffer and the
chain (src/Blockchain.py lines 27-30). -/
structure Blockchain where
  unconfirmed_transactions : List Tx
  chain : List Block
deriving DecidableEq, Repr

/-- Model of `Blockchain.create_genesis_block` (lines 33-36): builds
`Block(0, [], time.time(), "0"*64)`, assigns `hash = compute_hash()` (computed
while the `hash` attribute is still absent), and appends it to the chain. -/
def Blockchain.create_genesis_block (H : HashFun) (t : Nat) (bc : Blockchain) :
    Blockchain :=
  let genesis_block : Block :=
    { index := 0, transactions := [], timestamp := t, previous_hash := zeros64 }
  let sealed : Block :=
    { genesis_block with hash := some (genesis_block.compute_hash H) }
  { bc with chain := bc.chain ++ [sealed] }

/-- Model of `Blockchain.__init__` (lines 27-30): empty buffer, empty chain, then
`create_genesis_block`. -/
def Blockchain.init (H : HashFun) (t : Nat) : Blockchain :=
  Blockchain.create_genesis_block H t { unconfirmed_transactions := [], chain := [] }

/-- Model of `Blockchain.last_block` (lines 39-41): `self.chain[-1]`; `none` models the
`IndexError` on an empty chain. -/
def Blockchain.last_block (bc : Blockchain) : Option Block := bc.chain.getLast?

/-- Python list indexing `l[n]` with an `Int` index: non-negative indices from
the front, negative indices from the end, `none` models `IndexError`. -/
def pyIndex (l : List Block) (n : Int) : Option Block :=
  if 0 ≤ n then l.get? n.toNat
  else if -n ≤ (l.length : Int) then l.get? (l.length - (-n).toNat)
  else none

/-- The format string of `print_block` (lines 50-51), built by concatenation. -/
def formatBlock (b : Block) : String :=
  "Index: " ++ toString b.index ++
  "\n Transactions: " ++ toString b.transactions ++
  "\n Timestamp: " ++ toString b.timestamp ++
  "\n PreviousHash: " ++ b.previous_hash ++ "\n"

/-- Model of `Blockchain.print_block` (lines 44-51).  The guard is exactly
`len(self.chain) < n`; when it holds the method returns `None` (modelled
`some none`).  Otherwise it evaluates `self.chain[n]`, which for `n` equal to
the length raises `IndexError` (modelled `none`) and for negative `n` indexes
from the end of the list. -/
def Blockchain.print_block (bc : Blockchain) (n : Int) : Option (Option String) :=
  if (bc.chain.length : Int) < n then some none
  else
    match pyIndex bc.chain n with
    | none => none
    | some block => some (some (formatBlock block))

/-- Loop body of `Blockchain.proof_of_work` (lines 55-61): at the current
`nonce` value `n`, compute the hash; exit when it starts with
`'0' * difficulty`, otherwise increment the nonce.  `fuel` bounds the number
of iterations examined; `none` means the loop did not exit within `fuel`
iterations. -/
def powLoop (H : HashFun) (b : Block) (n : Nat) : Nat → Option (String × Nat)
  | 0 => none
  | fuel + 1 =>
    let computed_hash := Block.compute_hash H { b with nonce := some n }
    if strStartsWith computed_hash difficultyZeros then some (computed_hash, n)
    else powLoop H b (n + 1) fuel

/-- Model of `Blockchain.proof_of_work` (lines 54-61): set `block.nonce = 0`, then the
increment-and-rehash loop.  Returns the winning digest together with the block
as mutated by the search (its `nonce` holds the winning value). -/
def Blockchain.proof_of_work (H : HashFun) (b : Block) (fuel : Nat) :
    Option (String × Block) :=
  (powLoop H b 0 fuel).map (fun p => (p.1, { b with nonce := some p.2 }))

/-- Model of `Blockchain.is_valid_proof` (lines 77-79): `block_hash` starts with
`'0' * difficulty` and equals `block.compute_hash()` recomputed fresh. -/
def Blockchain.is_valid_proof (H : HashFun) (block : Block) (block_hash : String) :
    Bool :=
  strStartsWith block_hash difficultyZeros && block_hash == block.compute_hash H

/-- Model of `Blockchain.add_block` (lines 64-74).  Reads `self.last_block.hash`
(`none` models the exception when the chain is empty or the tip has no `hash`
attribute); rejects on a `previous_hash` mismatch or an invalid proof leaving
the state unchanged; otherwise assigns `block.hash = proof` and appends. -/
def Blockchain.add_block (H : HashFun) (bc : Blockchain) (block : Block)
    (proof : String) : Option (Bool × Blockchain) :=
  match bc.chain.getLast? with
  | none => none
  | some last_block =>
    match last_block.hash with
    | none => none
    | some previous_hash =>
      if previous_hash ≠ block.previous_hash then some (false, bc)
      else if ¬ (Blockchain.is_valid_proof H block proof = true) then some (false, bc)
      else
        some (true, { bc with chain := bc.chain ++ [{ block with hash := some proof }] })

/-- Loop of `Blockchain.check_chain_validity` (lines 82-95), with the running
sentinel `previous_hash` explicit.  For each block: read `block.hash` (`none`
models the `AttributeError` when absent), `delattr(block, "hash")`, test
`is_valid_proof` and the linkage; on failure `break` — the hash-stripped block
stays in the list; on success restore `block.hash` and continue with the
block's hash as the new sentinel.  Returns the Python return value together
with the list as mutated by the traversal. -/
def ccvLoop (H : HashFun) (previous_hash : String) :
    List Block → Option (Bool × List Block)
  | [] => some (true, [])
  | block :: rest =>
    match block.hash with
    | none => none
    | some block_hash =>
      let stripped : Block := { block with hash := none }
      if ¬ (Blockchain.is_valid_proof H stripped block_hash = true) ∨
          previous_hash ≠ stripped.previous_hash then
        some (false, stripped :: rest)
      else
        let restored : Block := { stripped with hash := some block_hash }
        match ccvLoop H block_hash rest with
        | none => none
        | some (result, rest') => some (result, restored :: rest')

/-- Model of `Blockchain.check_chain_validity` (lines 82-95): the loop above started
with the sentinel `previous_hash = "0"` of line 85. -/
def Blockchain.check_chain_validity (H : HashFun) (chain : List Block) :
    Option (Bool × List Block) :=
  ccvLoop H "0" chain

/-- Model of `Blockchain.new_transaction` (lines 98-99): append to the buffer. -/
def Blockchain.new_transaction (bc : Blockchain) (transaction : Tx) : Blockchain :=
  { bc with unconfirmed_transactions := bc.unconfirmed_transactions ++ [transaction] }

/-- Model of `Blockchain.mine` (lines 102-111).  Returns `some (r, s')` where `r` is
the Python return value (`none` for `False`, `some i` for the new index) and
`s'` the updated ledger; the outer `none` models an uncaught exception or a
proof-of-work search that exceeds the fuel.  Note the faithful details: the
result of `add_block` is *ignored* (the wildcard in the last match), and the
buffer is cleared unconditionally afterwards. -/
def Blockchain.mine (H : HashFun) (bc : Blockchain) (t : Nat) (fuel : Nat) :
    Option (Option Nat × Blockchain) :=
  if bc.unconfirmed_transactions.isEmpty then some (none, bc)
  else
    match bc.chain.getLast? with
    | none => none
    | some last_block =>
      match last_block.hash with
      | none => none
      | some lbh =>
        let new_block : Block :=
          { index := last_block.index + 1,
            transactions := bc.unconfirmed_transactions,
            timestamp := t,
            previous_hash := lbh }
        match Blockchain.proof_of_work H new_block fuel with
        | none => none
        | some (proof, nb) =>
          match Blockchain.add_block H bc nb proof with
          | none => none
          | some (_, bc') =>
            some (some nb.index, { bc' with unconfirmed_transactions := [] })

/-- Projection of `mine` that stops at the internal `add_block` call and
returns that call's boolean result (the value line 109 of the source
discards).  Mirrors `mine` step for step up to that point. -/
def Blockchain.mine_internal_add_result (H : HashFun) (bc : Blockchain)
    (t : Nat) (fuel : Nat) : Option Bool :=
  if bc.unconfirmed_transactions.isEmpty then none
  else
    match bc.chain.getLast? with
    | none => none
    | some last_block =>
      match last_block.hash with
      | none => none
      | some lbh =>
        let new_block : Block :=
          { index := last_block.index + 1,
            transactions := bc.unconfirmed_transactions,
            timestamp := t,
            previous_hash := lbh }
        match Blockchain.proof_of_work H new_block fuel with
        | none => none
        | some (proof, nb) =>
          match Blockchain.add_block H bc nb proof with
          | none => none
          | some (r, _) => some r

/-! ### Invariants and reachable states -/

/-- Linkage between adjacent chain entries: the left block's stored `hash` is
exactly the right block's `previous_hash`. -/
def LinkRel (a b : Block) : Prop := a.hash = some b.previous_hash

instance : DecidableRel LinkRel := fun a b =>
  show Decidable (a.hash = some b.previous_hash) from inferInstance

/-- Strictly increasing indices between adjacent chain entries. -/
def IdxLt (a b : Block) : Prop := a.index < b.index

instance : DecidableRel IdxLt := fun a b =>
  show Decidable (a.index < b.index) from inferInstance

/-- Ledger-state invariant: non-empty chain, genesis index 0, hash linkage
between adjacent blocks, and every stored block carries a `hash` attribute. -/
def LedgerInv (s : Blockchain) : Prop :=
  s.chain ≠ [] ∧
  (∀ g ∈ s.chain.head?, g.index = 0) ∧
  List.Chain' LinkRel s.chain ∧
  ∀ b ∈ s.chain, b.hash.isSome = true

/-- One completed mutating operation on the ledger (the three operations named
by the spec: `new_transaction`, `mine`, `add_block`), with the clock value and
the proof-of-work fuel chosen arbitrarily at each step. -/
inductive Step (H : HashFun) : Blockchain → Blockchain → Prop
  | new_transaction (s : Blockchain) (tx : Tx) : Step H s (s.new_transaction tx)
  | mine (s : Blockchain) (t fuel : Nat) (r : Option Nat) (s' : Blockchain) :
      s.mine H t fuel = some (r, s') → Step H s s'
  | add_block (s : Blockchain) (b : Block) (proof : String) (r : Bool)
      (s' : Blockchain) : Blockchain.add_block H s b proof = some (r, s') → Step H s s'

/-- States reachable from a freshly constructed `Blockchain` through completed
operations. -/
inductive Reachable (H : HashFun) : Blockchain → Prop
  | init (t : Nat) : Reachable H (Blockchain.init H t)
  | step {s s' : Blockchain} : Reachable H s → Step H s s' → Reachable H s'

/-- Like `Step`, but without externally supplied `add_block` calls (the
source's HTTP layer only drives `new_transaction` and `mine`). -/
inductive StepNA (H : HashFun) : Blockchain → Blockchain → Prop
  | new_transaction (s : Blockchain) (tx : Tx) : StepNA H s (s.new_transaction tx)
  | mine (s : Blockchain) (t fuel : Nat) (r : Option Nat) (s' : Blockchain) :
      s.mine H t fuel = some (r, s') → StepNA H s s'

/-- States reachable through `new_transaction` and `mine` only. -/
inductive ReachableNA (H : HashFun) : Blockchain → Prop
  | init (t : Nat) : ReachableNA H (Blockchain.init H t)
  | step {s s' : Blockchain} : ReachableNA H s → StepNA H s s' → ReachableNA H s'

/-! ### Concrete hash functions and fixtures used for explicit evaluations -/

/-- Hash function that maps every attribute record to `"00"`; the difficulty
predicate holds immediately, so the proof-of-work search exits at nonce 0. -/
def hConst : HashFun := fun _ => "00"

/-- Hash function whose digests never meet the difficulty predicate. -/
def hNoZero : HashFun := fun _ => "ff"

/-- Hash function that distinguishes whether the `hash` attribute is present
in the hashed record — as the concrete `sha256 ∘ json.dumps(__dict__)` of the
source does, since an assigned `hash` becomes part of the serialized dict. -/
def hHashSensitive : HashFun := fun b =>
  match b.hash with
  | none => "00x"
  | some _ => "00y"

/-- The genesis block produced by `Blockchain.init hConst 0`. -/
def gConst : Block :=
  { index := 0, transactions := [], timestamp := 0, previous_hash := zeros64,
    nonce := none, hash := some "00" }

/-- The block mined from `["a"]` on top of `gConst` under `hConst`. -/
def minedConst : Block :=
  { index := 1, transactions := ["a"], timestamp := 1, previous_hash := "00",
    nonce := some 0, hash := some "00" }

/-- The ledger state after one successful `mine` under `hConst`. -/
def bcMined : Blockchain :=
  { unconfirmed_transactions := [], chain := [gConst, minedConst] }

/-- The genesis block produced by `Blockchain.init hHashSensitive 0`. -/
def gSensitive : Block :=
  { index := 0, transactions := [], timestamp := 0, previous_hash := zeros64,
    nonce := none, hash := some "00x" }

/-- The block `gSensitive` with its `hash` attribute removed, as `check_chain_validity`
leaves it after a failed check. -/
def gSensitiveStripped : Block := { gSensitive with hash := none }

/-- The genesis block produced by `Blockchain.init hNoZero 0`. -/
def gNoZero : Block :=
  { index := 0, transactions := [], timestamp := 0, previous_hash := zeros64,
    nonce := none, hash := some "ff" }

/-- A block whose stored single-entry chain passes `check_chain_validity`
under `hConst`: its `previous_hash` is the validator's own sentinel `"0"`. -/
def blkV : Block :=
  { index := 7, transactions := ["t"], timestamp := 3, previous_hash := "0",
    nonce := none, hash := some "00" }

/-- An unsealed candidate block used to exercise `proof_of_work`. -/
def blkW : Block :=
  { index := 1, transactions := ["a"], timestamp := 1, previous_hash := "00" }

/-- A plain block without a `hash` attribute, for `compute_hash` evaluations. -/
def blkPlain : Block :=
  { index := 0, transactions := [], timestamp := 0, previous_hash := "p",
    nonce := some 0 }

/-- A block with index 0 that `add_block` nevertheless accepts on top of the
genesis block under `hConst` (it links to the tip and `"00"` is a valid
proof for it); `add_block` never inspects the index. -/
def badBlock : Block :=
  { index := 0, transactions := [], timestamp := 5, previous_hash := "00" }

/-- The state reached from `Blockchain.init hConst 0` by the accepting
`add_block` call on `badBlock`: two blocks, both with index 0. -/
def bcCE : Blockchain :=
  { unconfirmed_transactions := [],
    chain := [gConst, { badBlock with hash := some "00" }] }

/-! ### Basic lemmas about blocks -/

/-- Removing an absent `hash` attribute is a no-op on the record. -/
theorem Block.set_hash_none_eq (b : Block) (hb : b.hash = none) :
    ({ b with hash := none } : Block) = b := by
  cases b
  simp only at hb
  simp [hb]

/-- Stripping and re-assigning the same `hash` restores the original record. -/
theorem Block.restore_hash_eq (b : Block) (bh : String) (hb : b.hash = some bh) :
    ({ { b with hash := none } with hash := some bh } : Block) = b := by
  cases b
  simp only at hb
  simp [hb]

/-! ### The proof-of-work search -/

/-- Soundness of the search loop: a returned pair consists of the digest at
the returned nonce, that digest meets the difficulty predicate, and no nonce
between the start value and the returned one meets it. -/
theorem powLoop_sound (H : HashFun) (b : Block) (fuel : Nat) :
    ∀ n d m, powLoop H b n fuel = some (d, m) →
      n ≤ m ∧ d = Block.compute_hash H { b with nonce := some m } ∧
      strStartsWith d difficultyZeros = true ∧
      ∀ k, n ≤ k → k < m →
        strStartsWith (Block.compute_hash H { b with nonce := some k })
          difficultyZeros = false := by
  induction fuel with
  | zero => intro n d m h; simp [powLoop] at h
  | succ fuel ih =>
    intro n d m h
    simp only [powLoop] at h
    by_cases hs : strStartsWith (Block.compute_hash H { b with nonce := some n })
        difficultyZeros = true
    · rw [if_pos hs] at h
      simp only [Option.some.injEq, Prod.mk.injEq] at h
      obtain ⟨hd, hm⟩ := h
      subst hd; subst hm
      exact ⟨le_rfl, rfl, hs, fun k hk1 hk2 => absurd hk1 (by omega)⟩
    · rw [if_neg hs] at h
      obtain ⟨hle, hd, hstart, hleast⟩ := ih (n + 1) d m h
      refine ⟨by omega, hd, hstart, fun k hk1 hk2 => ?_⟩
      rcases Nat.eq_or_lt_of_le hk1 with heq | hlt
      · subst heq; exact Bool.eq_false_iff.mpr (fun hc => hs hc)
      · exact hleast k hlt hk2

/-- Completeness of the search loop: if `m` is the least nonce at or above the
start value whose digest meets the predicate, the loop exits there given
enough fuel. -/
theorem powLoop_complete (H : HashFun) (b : Block) (m : Nat)
    (hm : strStartsWith (Block.compute_hash H { b with nonce := some m })
      difficultyZeros = true) :
    ∀ fuel n, n ≤ m → m - n < fuel →
      (∀ k, n ≤ k → k < m →
        strStartsWith (Block.compute_hash H { b with nonce := some k })
          difficultyZeros = false) →
      powLoop H b n fuel =
        some (Block.compute_hash H { b with nonce := some m }, m) := by
  intro fuel
  induction fuel with
  | zero => intro n _ hf; omega
  | succ fuel ih =>
    intro n hn hf hleast
    simp only [powLoop]
    by_cases heq : n = m
    · subst heq; rw [if_pos hm]
    · have hlt : n < m := lt_of_le_of_ne hn heq
      rw [if_neg (by simp [hleast n le_rfl hlt])]
      exact ih (n + 1) (by omega) (by omega) (fun k hk1 hk2 => hleast k (by omega) hk2)

/-- Soundness of `proof_of_work` in terms of the returned block: the returned
block is the input with its `nonce` set to the least satisfying value, and the
returned digest is its `compute_hash` and meets the difficulty predicate. -/
theorem proof_of_work_sound (H : HashFun) (b : Block) (fuel : Nat)
    (digest : String) (b' : Block)
    (h : Blockchain.proof_of_work H b fuel = some (digest, b')) :
    ∃ n, b' = { b with nonce := some n } ∧
      digest = Block.compute_hash H b' ∧
      strStartsWith digest difficultyZeros = true ∧
      ∀ m, m < n →
        strStartsWith (Block.compute_hash H { b with nonce := some m })
          difficultyZeros = false := by
  simp only [Blockchain.proof_of_work, Option.map_eq_some'] at h
  obtain ⟨⟨d, m⟩, hloop, hpair⟩ := h
  simp only [Prod.mk.injEq] at hpair
  obtain ⟨hd, hb'⟩ := hpair
  obtain ⟨_, hdig, hstart, hleast⟩ := powLoop_sound H b fuel 0 d m hloop
  subst hd; subst hb'
  exact ⟨m, rfl, hdig, hstart, fun k hk => hleast k (Nat.zero_le k) hk⟩

/-- C4: `proof_of_work` starts the nonce at 0 and increments it; whenever it
returns, the block's `nonce` holds the least value whose digest starts with
`'0' * difficulty`, the returned digest is `compute_hash()` of the block at
that final nonce, and it satisfies the difficulty predicate; moreover, if some
nonce satisfies the predicate then the search does return once given fuel
beyond that nonce. -/
theorem proof_of_work_spec (H : HashFun) (b : Block) :
    (∀ fuel digest b', Blockchain.proof_of_work H b fuel = some (digest, b') →
      ∃ n, b' = { b with nonce := some n } ∧
        digest = Block.compute_hash H b' ∧
        strStartsWith digest difficultyZeros = true ∧
        ∀ m, m < n →
          strStartsWith (Block.compute_hash H { b with nonce := some m })
            difficultyZeros = false) ∧
    (∀ n, strStartsWith (Block.compute_hash H { b with nonce := some n })
        difficultyZeros = true →
      ∀ fuel, n < fuel →
        ∃ digest b', Blockchain.proof_of_work H b fuel = some (digest, b')) := by
  constructor
  · intro fuel digest b' h
    exact proof_of_work_sound H b fuel digest b' h
  · intro n hn fuel hfuel
    have hP : ∃ k, strStartsWith (Block.compute_hash H { b with nonce := some k })
        difficultyZeros = true := ⟨n, hn⟩
    have hfind := Nat.find_spec hP
    have hle : Nat.find hP ≤ n := Nat.find_le hn
    have hloop := powLoop_complete H b (Nat.find hP) hfind fuel 0
      (Nat.zero_le _) (by omega)
      (fun k _ hk => by
        have := Nat.find_min hP hk
        exact Bool.eq_false_iff.mpr this)
    refine ⟨Block.compute_hash H { b with nonce := some (Nat.find hP) },
      { b with nonce := some (Nat.find hP) }, ?_⟩
    simp only [Blockchain.proof_of_work, hloop, Option.map_some']

/-- Witness for `proof_of_work_spec` at the constant hash function: the search
on `blkW` exits immediately at nonce 0 with digest `"00"`. -/
theorem proof_of_work_spec_witness :
    (∃ n, ({ blkW with nonce := some 0 } : Block) = { blkW with nonce := some n } ∧
      "00" = Block.compute_hash hConst { blkW with nonce := some 0 } ∧
      strStartsWith "00" difficultyZeros = true ∧
      ∀ m, m < n →
        strStartsWith (Block.compute_hash hConst { blkW with nonce := some m })
          difficultyZeros = false) ∧
    (∃ digest b', Blockchain.proof_of_work hConst blkW 1 = some (digest, b')) :=
  ⟨(proof_of_work_spec hConst blkW).1 1 "00" { blkW with nonce := some 0 } (by decide),
   (proof_of_work_spec hConst blkW).2 0 (by decide) 1 (by decide)⟩

/-! ### `add_block` -/

/-- Unfolding of `add_block` once the tip and its hash are known. -/
theorem add_block_eq (H : HashFun) (bc : Blockchain) (b : Block) (proof : String)
    (lb : Block) (ph : String)
    (hlb : bc.chain.getLast? = some lb) (hh : lb.hash = some ph) :
    Blockchain.add_block H bc b proof =
      if ph ≠ b.previous_hash then some (false, bc)
      else if ¬ (Blockchain.is_valid_proof H b proof = true) then some (false, bc)
      else some (true,
        { bc with chain := bc.chain ++ [{ b with hash := some proof }] }) := by
  simp only [Blockchain.add_block, hlb, hh]

/-- Case analysis on a completed `add_block` call: either it rejected and the
state is unchanged, or every guard passed and the sealed block was appended. -/
theorem add_block_cases (H : HashFun) (bc : Blockchain) (b : Block)
    (proof : String) (r : Bool) (bc' : Blockchain)
    (h : Blockchain.add_block H bc b proof = some (r, bc')) :
    (r = false ∧ bc' = bc) ∨
    (r = true ∧ ∃ lb ph, bc.chain.getLast? = some lb ∧ lb.hash = some ph ∧
      b.previous_hash = ph ∧ Blockchain.is_valid_proof H b proof = true ∧
      bc' = { bc with chain := bc.chain ++ [{ b with hash := some proof }] }) := by
  unfold Blockchain.add_block at h
  cases hlb : bc.chain.getLast? with
  | none => rw [hlb] at h; simp at h
  | some lb =>
    rw [hlb] at h
    simp only at h
    cases hh : lb.hash with
    | none => rw [hh] at h; simp at h
    | some ph =>
      rw [hh] at h
      simp only at h
      by_cases h1 : ph ≠ b.previous_hash
      · rw [if_pos h1] at h
        simp only [Option.some.injEq, Prod.mk.injEq] at h
        exact Or.inl ⟨h.1.symm, h.2.symm⟩
      · rw [if_neg h1] at h
        push_neg at h1
        by_cases h2 : Blockchain.is_valid_proof H b proof = true
        · rw [if_neg (by simp [h2])] at h
          simp only [Option.some.injEq, Prod.mk.injEq] at h
          exact Or.inr ⟨h.1.symm, lb, ph, rfl, hh, h1.symm, h2, h.2.symm⟩
        · rw [if_pos (by simp [h2])] at h
          simp only [Option.some.injEq, Prod.mk.injEq] at h
          exact Or.inl ⟨h.1.symm, h.2.symm⟩

/-- C5: given a tip with a stored hash, `add_block(block, proof)` returns
`False` and leaves the ledger unchanged whenever `block.previous_hash` differs
from the tip's hash or `is_valid_proof(block, proof)` fails; otherwise it
assigns `block.hash = proof`, appends the sealed block, and returns `True`. -/
theorem add_block_spec (H : HashFun) (bc : Blockchain) (b : Block)
    (proof : String) (lb : Block) (ph : String)
    (hlb : bc.chain.getLast? = some lb) (hh : lb.hash = some ph) :
    ((b.previous_hash ≠ ph ∨ Blockchain.is_valid_proof H b proof = false) →
      Blockchain.add_block H bc b proof = some (false, bc)) ∧
    (b.previous_hash = ph → Blockchain.is_valid_proof H b proof = true →
      Blockchain.add_block H bc b proof =
        some (true,
          { bc with chain := bc.chain ++ [{ b with hash := some proof }] })) := by
  rw [add_block_eq H bc b proof lb ph hlb hh]
  constructor
  · rintro (hne | hfail)
    · rw [if_pos (fun he => hne he.symm)]
    · by_cases h1 : ph ≠ b.previous_hash
      · rw [if_pos h1]
      · rw [if_neg h1, if_pos (by simp [hfail])]
  · intro heq hvalid
    rw [if_neg (by simp [heq]), if_neg (by simp [hvalid])]

/-- Witness for `add_block_spec` on `Blockchain.init hConst 0`: a block with a
stale `previous_hash` is rejected without touching the chain, and a correctly
linked block with a valid proof is appended sealed. -/
theorem add_block_spec_witness :
    Blockchain.add_block hConst (Blockchain.init hConst 0)
      { index := 1, transactions := [], timestamp := 1, previous_hash := "zz" } "00" =
      some (false, Blockchain.init hConst 0) ∧
    Blockchain.add_block hConst (Blockchain.init hConst 0) badBlock "00" =
      some (true,
        { Blockchain.init hConst 0 with
            chain := (Blockchain.init hConst 0).chain ++
              [{ badBlock with hash := some "00" }] }) :=
  ⟨(add_block_spec hConst (Blockchain.init hConst 0)
      { index := 1, transactions := [], timestamp := 1, previous_hash := "zz" }
      "00" gConst "00" (by decide) (by decide)).1 (Or.inl (by decide)),
   (add_block_spec hConst (Blockchain.init hConst 0) badBlock "00" gConst "00"
      (by decide) (by decide)).2 (by decide) (by decide)⟩

/-! ### Sealed hashes (claim C2) -/

/-- C2 (amended): a hash assigned at genesis creation, or by a successful
`add_block` on a block whose `hash` attribute was absent beforehand, equals
`compute_hash()` evaluated on the block *without* the `hash` attribute — the
digest over `{index, transactions, timestamp, previous_hash, nonce}` alone.
(Calling `compute_hash()` on the stored block directly feeds the assigned
`hash` back into the digest input and need not reproduce the stored hash; see
the counterexample.) -/
theorem sealed_hash_spec (H : HashFun) (t : Nat) (bc : Blockchain) (b : Block)
    (proof : String) (bc' : Blockchain) :
    (∀ g, g ∈ (Blockchain.init H t).chain →
      ∃ h, g.hash = some h ∧ Block.compute_hash H { g with hash := none } = h) ∧
    (b.hash = none → Blockchain.add_block H bc b proof = some (true, bc') →
      proof = Block.compute_hash H b ∧
      bc'.chain = bc.chain ++ [{ b with hash := some proof }] ∧
      Block.compute_hash H
        { ({ b with hash := some proof } : Block) with hash := none } = proof) := by
  constructor
  · intro g hg
    simp only [Blockchain.init, Blockchain.create_genesis_block, List.nil_append,
      List.mem_singleton] at hg
    subst hg
    exact ⟨_, rfl, rfl⟩
  · intro hb h
    rcases add_block_cases H bc b proof true bc' h with ⟨hfalse, _⟩ | ⟨_, lb, ph, _, _, _, hvalid, hbc'⟩
    · exact absurd hfalse (by simp)
    · have hproof : proof = Block.compute_hash H b := by
        simp only [Blockchain.is_valid_proof, Bool.and_eq_true, beq_iff_eq] at hvalid
        exact hvalid.2
      refine ⟨hproof, by rw [hbc'], ?_⟩
      have : ({ ({ b with hash := some proof } : Block) with hash := none } : Block) = b := by
        cases b
        simp only at hb
        simp [hb]
      rw [this]
      exact hproof.symm

/-- Witness for `sealed_hash_spec`: the genesis block of
`Blockchain.init hConst 0` and the accepting `add_block` of `badBlock`. -/
theorem sealed_hash_spec_witness :
    (∃ h, gConst.hash = some h ∧
      Block.compute_hash hConst { gConst with hash := none } = h) ∧
    ("00" = Block.compute_hash hConst badBlock ∧
      bcCE.chain = (Blockchain.init hConst 0).chain ++
        [{ badBlock with hash := some "00" }] ∧
      Block.compute_hash hConst
        { ({ badBlock with hash := some "00" } : Block) with hash := none } = "00") :=
  ⟨(sealed_hash_spec hConst 0 (Blockchain.init hConst 0) badBlock "00" bcCE).1
      gConst (by decide),
   (sealed_hash_spec hConst 0 (Blockchain.init hConst 0) badBlock "00" bcCE).2
      (by decide) (by decide)⟩

/-- C2 counterexample: under a hash function that (like the source's
`json.dumps(__dict__)`-based digest) depends on whether the `hash` attribute
is present, the genesis block is sealed with `"00x"`, yet `compute_hash()` on
the stored block returns `"00y"` — the stored hash is not reproduced. -/
theorem sealed_recompute_cex :
    (Blockchain.init hHashSensitive 0).chain = [gSensitive] ∧
    gSensitive.hash = some "00x" ∧
    Block.compute_hash hHashSensitive gSensitive = "00y" ∧
    ("00x" : String) ≠ "00y" := by decide

/-! ### `compute_hash` determinism (claim C9) -/

/-- C9 (amended): `compute_hash` is a pure function of the block's attribute
record — two calls agree whenever *all* attributes, including the presence and
value of `hash`, are unchanged.  (Assigning or removing `hash` between the two
calls changes the serialized record and can change the digest; see the
counterexample.) -/
theorem compute_hash_deterministic (H : HashFun) (b₁ b₂ : Block)
    (h1 : b₁.index = b₂.index) (h2 : b₁.transactions = b₂.transactions)
    (h3 : b₁.timestamp = b₂.timestamp) (h4 : b₁.previous_hash = b₂.previous_hash)
    (h5 : b₁.nonce = b₂.nonce) (h6 : b₁.hash = b₂.hash) :
    Block.compute_hash H b₁ = Block.compute_hash H b₂ := by
  cases b₁
  cases b₂
  simp only at h1 h2 h3 h4 h5 h6
  subst h1; subst h2; subst h3; subst h4; subst h5; subst h6
  rfl

/-- Witness for `compute_hash_deterministic` at a concrete block. -/
theorem compute_hash_deterministic_witness :
    Block.compute_hash hHashSensitive blkPlain =
      Block.compute_hash hHashSensitive
        { index := 0, transactions := [], timestamp := 0, previous_hash := "p",
          nonce := some 0, hash := none } :=
  compute_hash_deterministic hHashSensitive blkPlain
    { index := 0, transactions := [], timestamp := 0, previous_hash := "p",
      nonce := some 0, hash := none }
    (by decide) (by decide) (by decide) (by decide) (by decide) (by decide)

/-- C9 counterexample: assigning the `hash` attribute between two
`compute_hash()` calls changes the result even though `nonce`, `transactions`
and `timestamp` are untouched. -/
theorem compute_hash_hash_field_cex :
    blkPlain.nonce = ({ blkPlain with hash := some "z" } : Block).nonce ∧
    blkPlain.transactions = ({ blkPlain with hash := some "z" } : Block).transactions ∧
    blkPlain.timestamp = ({ blkPlain with hash := some "z" } : Block).timestamp ∧
    Block.compute_hash hHashSensitive blkPlain ≠
      Block.compute_hash hHashSensitive { blkPlain with hash := some "z" } := by
  decide

/-! ### The freshly constructed ledger (claim C7) -/

/-- C7 (amended): a freshly constructed `Blockchain` has exactly one block:
index 0, `previous_hash` equal to the 64-character zero sentinel, no `nonce`
attribute, and `hash` equal to the digest of those fields.  (No difficulty
guarantee holds for this hash: the genesis block is sealed without running the
proof-of-work search; see the counterexample.) -/
theorem fresh_ledger_spec (H : HashFun) (t : Nat) :
    (Blockchain.init H t).chain.length = 1 ∧
    (Blockchain.init H t).chain =
      [{ index := 0, transactions := [], timestamp := t, previous_hash := zeros64,
         nonce := none,
         hash := some (Block.compute_hash H
           { index := 0, transactions := [], timestamp := t,
             previous_hash := zeros64, nonce := none, hash := none }) }] :=
  ⟨rfl, rfl⟩

/-- C7 counterexample: under a hash function whose digest for the genesis
record is `"ff"`, the fresh ledger satisfies the length, index and sentinel
conjuncts, but its genesis hash does not begin with `'0' * difficulty`. -/
theorem genesis_difficulty_cex :
    (Blockchain.init hNoZero 0).chain = [gNoZero] ∧
    gNoZero.index = 0 ∧ gNoZero.previous_hash = zeros64 ∧
    gNoZero.hash = some "ff" ∧
    strStartsWith "ff" difficultyZeros = false := by decide

/-! ### The validator rejects the ledger's own chains (claim C1) -/

/-- C1: evaluation at the failing input.  From a fresh ledger under `hConst`,
submit `"a"` and mine once: the chain is genesis plus one mined block, yet
`check_chain_validity` returns `False` — the validator's starting sentinel
`"0"` never equals the genesis block's `previous_hash` of 64 zero characters
(and the unmined genesis hash is not required to meet the difficulty
predicate), so the first loop iteration already fails. -/
theorem mine_chain_fails_validation :
    ((Blockchain.init hConst 0).new_transaction "a").mine hConst 1 1 =
      some (some 1, bcMined) ∧
    (Blockchain.check_chain_validity hConst bcMined.chain).map Prod.fst =
      some false := by decide

/-! ### `check_chain_validity` and mutation (claim C3) -/

/-- When the validator loop answers `True`, every block it walked was stripped
and then restored to its original record: the traversed list is unchanged. -/
theorem ccvLoop_true_id (H : HashFun) :
    ∀ (l : List Block) (prev : String) (l' : List Block),
      ccvLoop H prev l = some (true, l') → l' = l := by
  intro l
  induction l with
  | nil =>
    intro prev l' h
    simp only [ccvLoop, Option.some.injEq, Prod.mk.injEq] at h
    exact h.2.symm
  | cons b rest ih =>
    intro prev l' h
    simp only [ccvLoop] at h
    cases hh : b.hash with
    | none => rw [hh] at h; simp at h
    | some bh =>
      rw [hh] at h
      simp only at h
      split at h
      · simp only [Option.some.injEq, Prod.mk.injEq] at h
        exact absurd h.1 (by simp)
      · cases hrec : ccvLoop H bh rest with
        | none => rw [hrec] at h; simp at h
        | some p =>
          obtain ⟨result, rest'⟩ := p
          rw [hrec] at h
          simp only [Option.some.injEq, Prod.mk.injEq] at h
          obtain ⟨hres, hl'⟩ := h
          subst hres
          have hrest := ih bh rest' hrec
          subst hrest
          rw [← hl']
          rw [Block.restore_hash_eq b bh hh]

/-- C3 (amended): when `check_chain_validity` returns `True` it has restored
every block's `hash`, so the inspected chain is left exactly as it was and a
second call returns the same answer.  (On a chain with a failing block the
loop `break`s after `delattr` and before the restore, so the failing block
loses its `hash` attribute — the state changes and a second call aborts with
an attribute error when reading that block's `hash`; see the
counterexample.) -/
theorem check_validity_true_restores (H : HashFun) (chain chain' : List Block)
    (h : Blockchain.check_chain_validity H chain = some (true, chain')) :
    chain' = chain ∧
    Blockchain.check_chain_validity H chain' = some (true, chain') := by
  have heq := ccvLoop_true_id H chain "0" chain' h
  subst heq
  exact ⟨rfl, h⟩

/-- Witness for `check_validity_true_restores`: a single-block chain whose
`previous_hash` is the validator's own sentinel `"0"` and whose stored hash is
a valid constant-`"00"` proof passes validation unchanged. -/
theorem check_validity_true_restores_witness :
    ([blkV] : List Block) = [blkV] ∧
    Blockchain.check_chain_validity hConst [blkV] = some (true, [blkV]) :=
  check_validity_true_restores hConst [blkV] [blkV] (by decide)

/-- C3 counterexample: on the fresh ledger's own chain (under a hash function
distinguishing the presence of the `hash` attribute, as the source's digest
does), `check_chain_validity` answers `False` and hands back the genesis block
*without* its `hash` attribute — a field changed; a second call on the
resulting chain no longer returns an answer at all (it reads the deleted
attribute, an `AttributeError` in the source). -/
theorem check_validity_mutation_cex :
    Blockchain.check_chain_validity hHashSensitive [gSensitive] =
      some (false, [gSensitiveStripped]) ∧
    gSensitiveStripped ≠ gSensitive ∧
    Blockchain.check_chain_validity hHashSensitive [gSensitiveStripped] = none := by
  decide

/-! ### Ledger-state invariant (claim C8) -/

/-- Appending one element linked to the last element preserves `Chain'`. -/
theorem chain'_snoc {R : Block → Block → Prop} {c : List Block} {lb b : Block}
    (hc : List.Chain' R c) (hlb : c.getLast? = some lb) (hR : R lb b) :
    List.Chain' R (c ++ [b]) := by
  refine List.chain'_append.mpr ⟨hc, List.chain'_singleton b, ?_⟩
  intro x hx y hy
  rw [hlb] at hx
  simp only [Option.mem_def, Option.some.injEq] at hx
  simp only [List.head?_cons, Option.mem_def, Option.some.injEq] at hy
  subst hx; subst hy
  exact hR

/-- The head of a non-empty list survives appending on the right. -/
theorem head?_append_of_ne_nil {c : List Block} (b : Block) (hc : c ≠ []) :
    (c ++ [b]).head? = c.head? := by
  cases c with
  | nil => exact absurd rfl hc
  | cons a c' => rfl

/-- The freshly constructed ledger satisfies the invariant. -/
theorem init_LedgerInv (H : HashFun) (t : Nat) :
    LedgerInv (Blockchain.init H t) := by
  refine ⟨by simp [Blockchain.init, Blockchain.create_genesis_block], ?_, ?_, ?_⟩
  · intro g hg
    simp only [Blockchain.init, Blockchain.create_genesis_block, List.nil_append,
      List.head?_cons, Option.mem_def, Option.some.injEq] at hg
    subst hg
    rfl
  · exact List.chain'_singleton _
  · intro b hb
    simp only [Blockchain.init, Blockchain.create_genesis_block, List.nil_append,
      List.mem_singleton] at hb
    subst hb
    rfl

/-- A completed `add_block` call preserves the invariant. -/
theorem add_block_preserves_LedgerInv (H : HashFun) (s : Blockchain) (b : Block)
    (proof : String) (r : Bool) (s' : Blockchain)
    (hInv : LedgerInv s) (h : Blockchain.add_block H s b proof = some (r, s')) :
    LedgerInv s' := by
  rcases add_block_cases H s b proof r s' h with ⟨_, rfl⟩ |
    ⟨_, lb, ph, hlb, hh, hprev, _, rfl⟩
  · exact hInv
  · obtain ⟨hne, hhead, hlink, hsealed⟩ := hInv
    refine ⟨by simp, ?_, ?_, ?_⟩
    · intro g hg
      rw [head?_append_of_ne_nil _ hne] at hg
      exact hhead g hg
    · exact chain'_snoc hlink hlb (by simp [LinkRel, hh, hprev])
    · intro x hx
      rcases List.mem_append.mp hx with hx | hx
      · exact hsealed x hx
      · rw [List.mem_singleton] at hx
        subst hx
        rfl

/-- Characterization of a completed `mine` call: either the buffer was empty
and nothing changed, or a candidate block at index `tip.index + 1` linked to
the tip was sealed by the search and handed to `add_block`, after which the
buffer was cleared unconditionally and the new block's index returned. -/
theorem mine_cases (H : HashFun) (s : Blockchain) (t fuel : Nat) (r : Option Nat)
    (s' : Blockchain) (h : s.mine H t fuel = some (r, s')) :
    (r = none ∧ s' = s) ∨
    ∃ lb lbh n proof rb bc₁,
      s.chain.getLast? = some lb ∧ lb.hash = some lbh ∧
      proof = Block.compute_hash H
        { index := lb.index + 1, transactions := s.unconfirmed_transactions,
          timestamp := t, previous_hash := lbh, nonce := some n, hash := none } ∧
      strStartsWith proof difficultyZeros = true ∧
      Blockchain.add_block H s
        { index := lb.index + 1, transactions := s.unconfirmed_transactions,
          timestamp := t, previous_hash := lbh, nonce := some n, hash := none }
        proof = some (rb, bc₁) ∧
      s' = { bc₁ with unconfirmed_transactions := [] } ∧
      r = some (lb.index + 1) := by
  unfold Blockchain.mine at h
  by_cases hemp : s.unconfirmed_transactions.isEmpty = true
  · rw [if_pos hemp] at h
    simp only [Option.some.injEq, Prod.mk.injEq] at h
    exact Or.inl ⟨h.1.symm, h.2.symm⟩
  · rw [if_neg hemp] at h
    cases hlb : s.chain.getLast? with
    | none => rw [hlb] at h; simp at h
    | some lb =>
      rw [hlb] at h
      simp only at h
      cases hh : lb.hash with
      | none => rw [hh] at h; simp at h
      | some lbh =>
        rw [hh] at h
        simp only at h
        cases hpow : Blockchain.proof_of_work H
            { index := lb.index + 1, transactions := s.unconfirmed_transactions,
              timestamp := t, previous_hash := lbh, nonce := none, hash := none }
            fuel with
        | none => rw [hpow] at h; simp at h
        | some pr =>
          obtain ⟨proof, nb⟩ := pr
          rw [hpow] at h
          simp only at h
          obtain ⟨n, hnb, hdig, hstart, _⟩ :=
            proof_of_work_sound H _ fuel proof nb hpow
          cases hadd : Blockchain.add_block H s nb proof with
          | none => rw [hadd] at h; simp at h
          | some q =>
            obtain ⟨rb, bc₁⟩ := q
            rw [hadd] at h
            simp only [Option.some.injEq, Prod.mk.injEq] at h
            subst hnb
            refine Or.inr ⟨lb, lbh, n, proof, rb, bc₁, rfl, hh, hdig, hstart,
              hadd, h.2.symm, ?_⟩
            simp at h
            exact h.1.symm

/-- A completed `mine` call preserves the invariant. -/
theorem mine_preserves_LedgerInv (H : HashFun) (s : Blockchain) (t fuel : Nat)
    (r : Option Nat) (s' : Blockchain)
    (hInv : LedgerInv s) (h : s.mine H t fuel = some (r, s')) :
    LedgerInv s' := by
  rcases mine_cases H s t fuel r s' h with ⟨_, rfl⟩ |
    ⟨lb, lbh, n, proof, rb, bc₁, _, _, _, _, hadd, rfl, _⟩
  · exact hInv
  · have h₁ := add_block_preserves_LedgerInv H s _ proof rb bc₁ hInv hadd
    obtain ⟨hne, hhead, hlink, hsealed⟩ := h₁
    exact ⟨hne, hhead, hlink, hsealed⟩

/-- The operation `new_transaction` does not touch the chain, hence preserves the
invariant. -/
theorem new_transaction_preserves_LedgerInv (s : Blockchain) (tx : Tx)
    (hInv : LedgerInv s) : LedgerInv (s.new_transaction tx) := by
  obtain ⟨hne, hhead, hlink, hsealed⟩ := hInv
  exact ⟨hne, hhead, hlink, hsealed⟩

/-- Every reachable state satisfies the invariant. -/
theorem reachable_LedgerInv (H : HashFun) (s : Blockchain)
    (h : Reachable H s) : LedgerInv s := by
  induction h with
  | init t => exact init_LedgerInv H t
  | step _ hs ih =>
    cases hs with
    | new_transaction tx => exact new_transaction_preserves_LedgerInv _ tx ih
    | mine t fuel r sx hm => exact mine_preserves_LedgerInv H _ t fuel r _ ih hm
    | add_block b proof r sx ha =>
      exact add_block_preserves_LedgerInv H _ b proof r _ ih ha

/-- A completed `add_block` call on a block indexed one above the tip
preserves strictly increasing indices; the internal call of `mine` always has
this shape. -/
theorem mine_preserves_incr (H : HashFun) (s : Blockchain) (t fuel : Nat)
    (r : Option Nat) (s' : Blockchain)
    (hincr : List.Chain' IdxLt s.chain) (h : s.mine H t fuel = some (r, s')) :
    List.Chain' IdxLt s'.chain := by
  rcases mine_cases H s t fuel r s' h with ⟨_, rfl⟩ |
    ⟨lb, lbh, n, proof, rb, bc₁, hlb, _, _, _, hadd, rfl, _⟩
  · exact hincr
  · rcases add_block_cases H s _ proof rb bc₁ hadd with ⟨_, rfl⟩ |
      ⟨_, lb', ph', hlb', _, _, _, rfl⟩
    · exact hincr
    · exact chain'_snoc hincr hlb (by
        have : lb' = lb := by
          rw [hlb] at hlb'
          exact (Option.some.inj hlb').symm
        simp [IdxLt])

/-- Every state reachable without external `add_block` calls additionally has
strictly increasing block indices. -/
theorem reachableNA_incr (H : HashFun) (s : Blockchain)
    (h : ReachableNA H s) : List.Chain' IdxLt s.chain := by
  induction h with
  | init t => exact List.chain'_singleton _
  | step _ hs ih =>
    cases hs with
    | new_transaction tx => exact ih
    | mine t fuel r sx hm => exact mine_preserves_incr H _ t fuel r _ ih hm

/-- Every `ReachableNA` state is `Reachable`. -/
theorem reachableNA_reachable (H : HashFun) (s : Blockchain)
    (h : ReachableNA H s) : Reachable H s := by
  induction h with
  | init t => exact Reachable.init t
  | step _ hs ih =>
    cases hs with
    | new_transaction tx => exact Reachable.step ih (Step.new_transaction _ tx)
    | mine t fuel r sx hm => exact Reachable.step ih (Step.mine _ t fuel r _ hm)

/-- C8 (amended): every state reachable through completed `new_transaction`,
`mine` and `add_block` operations has a non-empty chain whose first block has
index 0, every stored block carries a `hash`, and each block's
`previous_hash` equals the stored hash of its predecessor.  Strictly
increasing indices hold for every state reachable through `new_transaction`
and `mine` alone; an externally supplied `add_block` can break them, because
`add_block` never inspects the index (see the counterexample). -/
theorem reachable_invariant_spec (H : HashFun) (s : Blockchain) :
    (Reachable H s → LedgerInv s) ∧
    (ReachableNA H s → LedgerInv s ∧ List.Chain' IdxLt s.chain) :=
  ⟨fun h => reachable_LedgerInv H s h,
   fun h => ⟨reachable_LedgerInv H s (reachableNA_reachable H s h),
             reachableNA_incr H s h⟩⟩

/-- Witness for `reachable_invariant_spec` at the fresh ledger under
`hConst`. -/
theorem reachable_invariant_spec_witness :
    LedgerInv (Blockchain.init hConst 0) ∧
    (LedgerInv (Blockchain.init hConst 0) ∧
      List.Chain' IdxLt (Blockchain.init hConst 0).chain) :=
  ⟨(reachable_invariant_spec hConst (Blockchain.init hConst 0)).1
      (Reachable.init 0),
   (reachable_invariant_spec hConst (Blockchain.init hConst 0)).2
      (ReachableNA.init 0)⟩

/-- C8 counterexample: from the fresh ledger under `hConst`, the externally
supplied `add_block` of `badBlock` (index 0, correctly linked, valid proof)
is accepted, producing a reachable state whose two blocks both have index 0 —
the indices along the chain are not strictly increasing. -/
theorem reachable_nonmonotone_index_cex :
    Blockchain.add_block hConst (Blockchain.init hConst 0) badBlock "00" =
      some (true, bcCE) ∧
    Reachable hConst bcCE ∧
    ¬ List.Chain' IdxLt bcCE.chain := by
  refine ⟨by decide, ?_, ?_⟩
  · exact Reachable.step (Reachable.init 0)
      (Step.add_block (Blockchain.init hConst 0) badBlock "00" true bcCE (by decide))
  · intro h
    rw [show bcCE.chain = [gConst, { badBlock with hash := some "00" }] from rfl,
      List.chain'_cons] at h
    exact absurd h.1 (by simp [IdxLt, gConst, badBlock])

/-! ### The failure path of `add_block` inside `mine` (claim C6) -/

/-- The internal `add_block` call of `mine` never returns `False`: the
candidate is linked to the very tip read in the same call, and the digest
returned by `proof_of_work` is exactly `compute_hash()` of the sealed
candidate and meets the difficulty predicate, so both guards pass.  The
conditional behaviour the specification describes for a failing internal
`add_block` is therefore about an unreachable event. -/
theorem mine_internal_add_block_always_true (H : HashFun) (bc : Blockchain)
    (t fuel : Nat) (r : Bool)
    (h : Blockchain.mine_internal_add_result H bc t fuel = some r) : r = true := by
  unfold Blockchain.mine_internal_add_result at h
  by_cases hemp : bc.unconfirmed_transactions.isEmpty = true
  · rw [if_pos hemp] at h; simp at h
  · rw [if_neg hemp] at h
    cases hlb : bc.chain.getLast? with
    | none => rw [hlb] at h; simp at h
    | some lb =>
      rw [hlb] at h
      simp only at h
      cases hh : lb.hash with
      | none => rw [hh] at h; simp at h
      | some lbh =>
        rw [hh] at h
        simp only at h
        cases hpow : Blockchain.proof_of_work H
            { index := lb.index + 1, transactions := bc.unconfirmed_transactions,
              timestamp := t, previous_hash := lbh, nonce := none, hash := none }
            fuel with
        | none => rw [hpow] at h; simp at h
        | some pr =>
          obtain ⟨proof, nb⟩ := pr
          rw [hpow] at h
          simp only at h
          obtain ⟨n, hnb, hdig, hstart, _⟩ :=
            proof_of_work_sound H _ fuel proof nb hpow
          rw [add_block_eq H bc nb proof lb lbh hlb hh] at h
          have hprev : nb.previous_hash = lbh := by rw [hnb]
          rw [if_neg (by simp [hprev])] at h
          have hvalid : Blockchain.is_valid_proof H nb proof = true := by
            unfold Blockchain.is_valid_proof
            rw [hstart, hdig]
            simp
          rw [if_neg (by simp [hvalid])] at h
          simp only [Option.some.injEq] at h
          exact h.symm

/-- The operation `mine` clears the pending-transaction buffer whenever it returns a block
index, regardless of the ignored result of its internal `add_block` call
(line 110 of the source runs unconditionally). -/
theorem mine_clears_buffer (H : HashFun) (bc : Blockchain) (t fuel : Nat)
    (i : Nat) (s' : Blockchain)
    (h : bc.mine H t fuel = some (some i, s')) :
    s'.unconfirmed_transactions = [] := by
  rcases mine_cases H bc t fuel (some i) s' h with ⟨hr, _⟩ |
    ⟨_, _, _, _, _, _, _, _, _, _, _, rfl, _⟩
  · simp at hr
  · rfl

/-! ### `print_block` (claim C10) -/

/-- C10: the only guard of `print_block(n)` is `len(chain) < n`.  For
`n = len(chain)` the guard does not fire and the subsequent `chain[n]` access
is out of range (the call does not return a value — an `IndexError` in the
source, `none` in the model).  For every negative `n` the guard does not fire
either (the no-such-block return `some none` never happens), and when `-n` is
within the chain's length the call returns the block counted from the end of
the chain. -/
theorem print_block_guard_spec (bc : Blockchain) (n : Int) :
    bc.print_block (bc.chain.length : Int) = none ∧
    (n < 0 →
      bc.print_block n ≠ some none ∧
      ∀ b : Block, -n ≤ (bc.chain.length : Int) →
        bc.chain.get? (bc.chain.length - (-n).toNat) = some b →
        bc.print_block n = some (some (formatBlock b))) := by
  constructor
  · unfold Blockchain.print_block
    rw [if_neg (lt_irrefl _)]
    unfold pyIndex
    rw [if_pos (Int.natCast_nonneg _), Int.toNat_natCast,
      List.get?_eq_none.mpr le_rfl]
  · intro hn
    have hguard : ¬ ((bc.chain.length : Int) < n) :=
      not_lt.mpr (le_trans (le_of_lt hn) (Int.natCast_nonneg _))
    constructor
    · unfold Blockchain.print_block
      rw [if_neg hguard]
      cases hpi : pyIndex bc.chain n with
      | none => simp
      | some b => simp
    · intro b hle hget
      unfold Blockchain.print_block
      rw [if_neg hguard]
      unfold pyIndex
      rw [if_neg (not_le.mpr hn), if_pos hle, hget]

/-- Witness for `print_block_guard_spec` on the fresh ledger under `hConst`:
`print_block(1)` on the one-block chain hits the out-of-range access, while
`print_block(-1)` bypasses the guard and prints the last block. -/
theorem print_block_guard_spec_witness :
    (Blockchain.init hConst 0).print_block 1 = none ∧
    (Blockchain.init hConst 0).print_block (-1) ≠ some none ∧
    (Blockchain.init hConst 0).print_block (-1) =
      some (some (formatBlock gConst)) :=
  ⟨(print_block_guard_spec (Blockchain.init hConst 0) (-1)).1,
   ((print_block_guard_spec (Blockchain.init hConst 0) (-1)).2 (by decide)).1,
   ((print_block_guard_spec (Blockchain.init hConst 0) (-1)).2 (by decide)).2
      gConst (by decide) (by decide)⟩
